import Mathlib

/-
Verification of the tag reconciliation module (src/sync/fromDisk/tags.js).

The module exposes two reconciliation entry points, a legacy one (sync) and a
current one (syncNew), plus two small helpers (getDuplicates and
getDuplicatesByKey).  Both entry points are linear pipelines that prepare
positional parameter payloads for two external stored procedures.  The external
database collaborator is modelled by passing its response (the id list of the
first call) as an explicit argument, and the payloads of both calls are the
returned values of the embedded functions.
-/

/-- A tag as declared in infoCourse.json: name, color and description. -/
structure Tag where
  name : String
  color : String
  description : String
deriving DecidableEq

/-- A question record as seen by the legacy sync: a numeric database id and an
optional list of referenced tag names (q.tags may be absent, in which case the
source falls back to the empty list via q.tags or-else empty). -/
structure Question where
  id : Nat
  tags : Option (List String)
deriving DecidableEq

/-- The courseInfo argument of the legacy sync: an optional tag list (the source
falls back to empty via courseInfo.tags or-else empty) and the course id. -/
structure CourseInfo where
  tags : Option (List Tag)
  courseId : Nat
deriving DecidableEq

/-- Accumulator-passing core of getDuplicates: seen is the set of values already
encountered (the seen object of the source), a value is kept exactly when it was
already present. -/
def getDuplicatesGo {α : Type} [DecidableEq α] (seen : List α) : List α → List α
  | [] => []
  | v :: rest =>
      if v ∈ seen then v :: getDuplicatesGo seen rest
      else getDuplicatesGo (v :: seen) rest

/-- Embeds getDuplicates of the source: filter keeping each element that has
already occurred earlier in the list. -/
def getDuplicates {α : Type} [DecidableEq α] (arr : List α) : List α :=
  getDuplicatesGo [] arr

/-- Embeds getDuplicatesByKey of the source: duplicates of the key projection. -/
def getDuplicatesByKey {α β : Type} [DecidableEq β] (arr : List α) (key : α → β) :
    List β :=
  getDuplicates (arr.map key)

theorem getDuplicatesGo_count {α : Type} [DecidableEq α] (seen : List α)
    (S : List α) (x : α) :
    (getDuplicatesGo seen S).count x =
      if x ∈ seen then S.count x else S.count x - 1 := by
  induction S generalizing seen with
  | nil => simp [getDuplicatesGo]
  | cons v rest ih =>
    by_cases hv : v ∈ seen
    · rw [getDuplicatesGo, if_pos hv]
      by_cases hx : x ∈ seen
      · by_cases hxv : x = v
        · subst hxv
          rw [List.count_cons_self, List.count_cons_self, ih, if_pos hx, if_pos hx]
        · rw [List.count_cons_of_ne hxv, List.count_cons_of_ne hxv, ih, if_pos hx]
      · have hxv : x ≠ v := fun h => hx (h ▸ hv)
        rw [List.count_cons_of_ne hxv, List.count_cons_of_ne hxv, ih, if_neg hx]
    · rw [getDuplicatesGo, if_neg hv, ih]
      by_cases hxv : x = v
      · subst hxv
        have hx : x ∉ seen := hv
        rw [if_pos (List.mem_cons_self x seen), if_neg hx, List.count_cons_self]
        omega
      · rw [List.count_cons_of_ne hxv]
        simp [List.mem_cons, hxv]

theorem getDuplicates_count {α : Type} [DecidableEq α] (S : List α) (x : α) :
    (getDuplicates S).count x = S.count x - 1 := by
  rw [getDuplicates, getDuplicatesGo_count]
  simp

theorem getDuplicatesGo_sublist {α : Type} [DecidableEq α] (seen : List α)
    (S : List α) : List.Sublist (getDuplicatesGo seen S) S := by
  induction S generalizing seen with
  | nil => simp [getDuplicatesGo]
  | cons v rest ih =>
    rw [getDuplicatesGo]
    by_cases hv : v ∈ seen
    · rw [if_pos hv]
      exact List.Sublist.cons₂ v (ih seen)
    · rw [if_neg hv]
      exact List.Sublist.cons v (ih (v :: seen))

theorem getDuplicatesGo_length {α : Type} [DecidableEq α] (seen : List α)
    (S : List α) :
    (getDuplicatesGo seen S).length =
      S.length - (S.toFinset \ seen.toFinset).card := by
  induction S generalizing seen with
  | nil => simp [getDuplicatesGo]
  | cons v rest ih =>
    have hsub : (rest.toFinset \ seen.toFinset).card ≤ rest.length := by
      calc (rest.toFinset \ seen.toFinset).card
          ≤ rest.toFinset.card := Finset.card_le_card (Finset.sdiff_subset)
        _ ≤ rest.length := rest.toFinset_card_le
    rw [getDuplicatesGo]
    by_cases hv : v ∈ seen
    · rw [if_pos hv, List.length_cons, ih, List.toFinset_cons,
        Finset.insert_sdiff_of_mem _ (List.mem_toFinset.mpr hv), List.length_cons]
      omega
    · rw [if_neg hv, ih, List.toFinset_cons, List.toFinset_cons, List.length_cons]
      have hvs : v ∉ seen.toFinset := fun h => hv (List.mem_toFinset.mp h)
      rw [Finset.insert_sdiff_of_not_mem _ hvs]
      have herase : rest.toFinset \ insert v seen.toFinset =
          (rest.toFinset \ seen.toFinset).erase v := by
        ext x
        simp only [Finset.mem_sdiff, Finset.mem_insert, Finset.mem_erase]
        constructor
        · rintro ⟨hx, hni⟩
          exact ⟨fun h => hni (Or.inl h), hx, fun h => hni (Or.inr h)⟩
        · rintro ⟨hne, hx, hns⟩
          exact ⟨hx, fun h => h.elim hne hns⟩
      rw [herase]
      by_cases hvc : v ∈ rest.toFinset \ seen.toFinset
      · have hins : insert v (rest.toFinset \ seen.toFinset) =
            rest.toFinset \ seen.toFinset := Finset.insert_eq_self.mpr hvc
        rw [hins]
        have hcard := Finset.card_erase_of_mem hvc
        have hpos : 0 < (rest.toFinset \ seen.toFinset).card :=
          Finset.card_pos.mpr ⟨v, hvc⟩
        omega
      · have herase2 : (rest.toFinset \ seen.toFinset).erase v =
            rest.toFinset \ seen.toFinset := Finset.erase_eq_of_not_mem hvc
        rw [herase2, Finset.card_insert_of_not_mem hvc]
        omega

theorem getDuplicates_length {α : Type} [DecidableEq α] (S : List α) :
    (getDuplicates S).length = S.length - S.toFinset.card := by
  rw [getDuplicates, getDuplicatesGo_length]
  simp

theorem getDuplicates_eq_nil_iff {α : Type} [DecidableEq α] (S : List α) :
    getDuplicates S = [] ↔ S.Nodup := by
  rw [List.nodup_iff_count_le_one]
  constructor
  · intro h x
    have := getDuplicates_count S x
    rw [h] at this
    simp at this
    omega
  · intro h
    rw [List.eq_nil_iff_forall_not_mem]
    intro x hx
    have hc : 0 < (getDuplicates S).count x := List.count_pos_iff.mpr hx
    rw [getDuplicates_count] at hc
    have := h x
    omega

/-- The fixed description given to auto-generated placeholder tags. -/
def autoGeneratedDescription : String :=
  "Auto-generated from use in a question; add this tag to your courseInfo.json file to customize"

/-- The placeholder tag synthesized for a referenced but undeclared name. -/
def placeholderTag (name : String) : Tag :=
  { name := name, color := "gray1", description := autoGeneratedDescription }

/-- The tag list of a question with the source fallback to empty. -/
def qTags (q : Question) : List String := q.tags.getD []

/-- Embeds the questionTagNames accumulation of the legacy sync: every tag name
of every question, pushed in question order, occurrences kept. -/
def questionTagNames (db : List (String × Question)) : List String :=
  db.foldl (fun acc p => acc ++ qTags p.2) []

/-- Embeds the missingTagNames filter of the legacy sync: the referenced names
that are not in the declared-name set, occurrences kept. -/
def missingTagNames (tags : List Tag) (db : List (String × Question)) :
    List String :=
  (questionTagNames db).filter (fun n => decide (n ∉ tags.map Tag.name))

/-- Embeds the placeholder push of the legacy sync: the working tag list after
appending one placeholder per element of missingTagNames. -/
def resolvedTags (tags : List Tag) (db : List (String × Question)) : List Tag :=
  tags ++ (missingTagNames tags db).map placeholderTag

/-- Embeds paramTags of the legacy sync: each tag becomes the positional tuple
(name, color, description). -/
def paramTags (tags : List Tag) : List (String × String × String) :=
  tags.map (fun t => (t.name, t.color, t.description))

/-- Lookup in a JavaScript-object-style association list where a later binding
of the same key overwrites an earlier one (the reduce of the legacy sync and
the Map of the current sync both have this last-wins semantics). -/
def mapLookup (m : List (String × Nat)) (k : String) : Option Nat :=
  m.foldl (fun acc p => if p.1 = k then some p.2 else acc) none

/-- Embeds the tagIdsByName reduce of the legacy sync: the id at each index of
the response is bound to the name of the encoded tuple at the same index.  When
the response holds more ids than there are tuples the source indexes past the
end of paramTags and throws a TypeError, modelled as none. -/
def buildTagIdsByName (names : List String) (ids : List Nat) :
    Option (List (String × Nat)) :=
  if ids.length ≤ names.length then some (names.zip ids) else none

/-- The errors thrown by the legacy sync itself (failures of the external
database collaborator simply propagate and are not enumerated here). -/
inductive SyncError where
  | duplicateTagNames (names : List String)
  | unknownTags (qid : String) (tags : List String)
  | duplicateQuestionTags (qid : String) (tags : List String)
  | typeError
deriving DecidableEq

/-- The data a successful legacy run hands to the two stored procedures: the
encoded tag tuples of the first call and the per-question association tuples of
the second call.  An id is an Option because the source reads the map without a
membership guard when building an association entry. -/
structure SyncResult where
  paramTags : List (String × String × String)
  paramQuestionTags : List (Nat × List (Option Nat))
deriving DecidableEq

/-- Embeds the per-question loop of the legacy sync: for each question in order,
fail on a referenced name missing from the map, then fail on duplicated
references, otherwise emit the association tuple (question id, looked-up ids in
reference order). -/
def buildQuestionTags (m : List (String × Nat)) :
    List (String × Question) → Except SyncError (List (Nat × List (Option Nat)))
  | [] => Except.ok []
  | p :: rest =>
      if (qTags p.2).filter (fun t => (mapLookup m t).isNone) ≠ [] then
        Except.error (SyncError.unknownTags p.1
          ((qTags p.2).filter (fun t => (mapLookup m t).isNone)))
      else if getDuplicates (qTags p.2) ≠ [] then
        Except.error (SyncError.duplicateQuestionTags p.1 (getDuplicates (qTags p.2)))
      else
        match buildQuestionTags m rest with
        | Except.error e => Except.error e
        | Except.ok r =>
            Except.ok ((p.2.id, (qTags p.2).map (fun t => mapLookup m t)) :: r)

/-- Embeds the legacy sync entry point.  The response of the first stored
procedure (the ordered id list of the single returned row) is passed in as
dbTagIds; on success the result carries the payloads of both calls. -/
def sync (ci : CourseInfo) (db : List (String × Question)) (dbTagIds : List Nat) :
    Except SyncError SyncResult :=
  if getDuplicatesByKey (ci.tags.getD []) Tag.name ≠ [] then
    Except.error (SyncError.duplicateTagNames
      (getDuplicatesByKey (ci.tags.getD []) Tag.name))
  else
    match buildTagIdsByName
        ((paramTags (resolvedTags (ci.tags.getD []) db)).map Prod.fst) dbTagIds with
    | none => Except.error SyncError.typeError
    | some m =>
        match buildQuestionTags m db with
        | Except.error e => Except.error e
        | Except.ok pqt =>
            Except.ok
              { paramTags := paramTags (resolvedTags (ci.tags.getD []) db),
                paramQuestionTags := pqt }

/-- Post-state of the caller-owned courseInfo.tags array after a legacy run.
The source aliases that array into its local tags variable and pushes the
placeholder records onto it; the push sits after the duplicate-name check and
before the first database call, so every later exit (TypeError, unknown tags,
duplicated question tags, success) leaves the array extended.  When the tags
field is absent the local variable is a fresh empty array and the field is
untouched. -/
def syncFinalTags (ci : CourseInfo) (db : List (String × Question)) :
    Option (List Tag) :=
  match ci.tags with
  | none => none
  | some ts =>
      if getDuplicatesByKey ts Tag.name ≠ [] then some ts
      else some (resolvedTags ts db)

/-- An item produced by the course-data loader collaborator: a per-item error
flag and the loaded data.  The embedded code reads data only when the flag is
false, so the value carried alongside a set flag is immaterial. -/
structure InfoFile (α : Type) where
  hasErrors : Bool
  data : α
deriving DecidableEq

/-- The courseData argument of the current sync: the course-level item carrying
the declared tag list, and the question items carrying their referenced tag
names (optional, with fallback to empty). -/
structure CourseData where
  course : InfoFile (List Tag)
  questions : List (String × InfoFile (Option (List String)))
deriving DecidableEq

/-- Embeds the courseTags computation of the current sync: empty when the
course item has errors, otherwise one positional tuple
(name, description, color) per declared tag. -/
def newCourseTags (course : InfoFile (List Tag)) :
    List (String × String × String) :=
  if course.hasErrors then []
  else course.data.map (fun t => (t.name, t.description, t.color))

/-- Insertion-ordered set add, the semantics of JavaScript Set.add: a value
already present leaves the list unchanged, a new value is appended. -/
def jsSetAdd (seen : List String) (v : String) : List String :=
  if v ∈ seen then seen else seen ++ [v]

/-- Embeds the knownQuestionTagsNames accumulation of the current sync: the
names referenced by questions without errors, first-occurrence ordered and
deduplicated by Set semantics. -/
def newQuestionTagNames (qs : List (String × InfoFile (Option (List String)))) :
    List String :=
  qs.foldl
    (fun acc p =>
      if p.2.hasErrors then acc else (p.2.data.getD []).foldl jsSetAdd acc)
    []

/-- Embeds the per-question Set deduplication of the current sync. -/
def dedupTags (l : List String) : List String := l.foldl jsSetAdd []

/-- The positional parameters of the sync_course_tags_new call. -/
structure SyncNewParams where
  courseValid : Bool
  courseTags : List (String × String × String)
  questionTagNames : List String
  courseId : Nat
deriving DecidableEq

/-- Embeds the questionTagsParam accumulation of the current sync: one entry
per question without errors, pairing the working-id lookup with the map lookup
of each deduplicated referenced name (a lookup miss is encoded as none, the
undefined of the source). -/
def newQuestionTagsParam (qs : List (String × InfoFile (Option (List String))))
    (m : List (String × Nat)) (questionIds : String → Option Nat) :
    List (Option Nat × List (Option Nat)) :=
  qs.filterMap (fun p =>
    if p.2.hasErrors then none
    else some
      (questionIds p.1,
        (dedupTags (p.2.data.getD [])).map (fun t => mapLookup m t)))

/-- Embeds the current sync entry point.  The response of the first stored
procedure (the new_tags_json list of (name, id) pairs) is passed in as newTags;
the value is the pair of the first-call parameters and the second-call payload.
The function is total: the source contains no validation and no throw site of
its own. -/
def syncNew (courseId : Nat) (cd : CourseData) (questionIds : String → Option Nat)
    (newTags : List (String × Nat)) :
    SyncNewParams × List (Option Nat × List (Option Nat)) :=
  (⟨!cd.course.hasErrors, newCourseTags cd.course,
      newQuestionTagNames cd.questions, courseId⟩,
    newQuestionTagsParam cd.questions newTags questionIds)

theorem mapLookup_nil (k : String) : mapLookup [] k = none := rfl

theorem mapLookup_foldl_init (l : List (String × Nat)) (k : String) :
    ∀ init : Option Nat,
      l.foldl (fun acc p => if p.1 = k then some p.2 else acc) init =
        match mapLookup l k with
        | some v => some v
        | none => init := by
  induction l with
  | nil => intro init; simp [mapLookup]
  | cons p l ih =>
    intro init
    have hm : mapLookup (p :: l) k =
        match mapLookup l k with
        | some v => some v
        | none => if p.1 = k then some p.2 else none := by
      rw [mapLookup, List.foldl_cons, ih]
    rw [List.foldl_cons, ih, hm]
    cases h : mapLookup l k with
    | some v => simp
    | none =>
      by_cases hk : p.1 = k
      · simp [hk]
      · simp [hk]

theorem mapLookup_cons (p : String × Nat) (l : List (String × Nat)) (k : String) :
    mapLookup (p :: l) k =
      match mapLookup l k with
      | some v => some v
      | none => if p.1 = k then some p.2 else none := by
  rw [mapLookup, List.foldl_cons, mapLookup_foldl_init]

theorem mapLookup_isSome_iff (m : List (String × Nat)) (k : String) :
    (mapLookup m k).isSome = true ↔ k ∈ m.map Prod.fst := by
  induction m with
  | nil => simp [mapLookup]
  | cons p l ih =>
    rw [mapLookup_cons]
    cases h : mapLookup l k with
    | some v =>
      simp only [Option.isSome_some, List.map_cons, List.mem_cons]
      rw [h] at ih
      simp at ih
      simp [ih]
    | none =>
      rw [h] at ih
      simp only [Option.isSome_none, Bool.false_eq_true, false_iff] at ih
      by_cases hk : p.1 = k
      · simp [hk]
      · simp only [if_neg hk, Option.isSome_none, Bool.false_eq_true, false_iff,
          List.map_cons, List.mem_cons]
        rintro (h1 | h2)
        · exact hk h1.symm
        · exact ih h2

theorem mapLookup_eq_none_of_not_mem (m : List (String × Nat)) (k : String)
    (h : k ∉ m.map Prod.fst) : mapLookup m k = none := by
  cases hm : mapLookup m k with
  | none => rfl
  | some v =>
    exact absurd ((mapLookup_isSome_iff m k).mp (by simp [hm])) h

theorem mapLookup_zip_get (names : List String) (ids : List Nat)
    (hn : names.Nodup) :
    ∀ (i : Nat) (n : String) (id : Nat), names[i]? = some n → ids[i]? = some id →
      mapLookup (names.zip ids) n = some id := by
  induction names generalizing ids with
  | nil => intro i n id h1; simp at h1
  | cons n0 ns ih =>
    intro i n id h1 h2
    cases ids with
    | nil => simp at h2
    | cons id0 is =>
      cases i with
      | zero =>
        rw [List.getElem?_cons_zero] at h1 h2
        have e1 : n0 = n := Option.some_inj.mp h1
        have e2 : id0 = id := Option.some_inj.mp h2
        rw [List.zip_cons_cons, mapLookup_cons, ← e1, ← e2]
        have hkeys : n0 ∉ (ns.zip is).map Prod.fst := by
          intro hmem
          rcases List.mem_map.mp hmem with ⟨q, hq, hq1⟩
          have hqm := (List.of_mem_zip hq).1
          rw [hq1] at hqm
          exact (List.nodup_cons.mp hn).1 hqm
        rw [mapLookup_eq_none_of_not_mem _ _ hkeys]
        simp
      | succ j =>
        simp only [List.getElem?_cons_succ] at h1 h2
        rw [List.zip_cons_cons, mapLookup_cons,
          ih is (List.nodup_cons.mp hn).2 j n id h1 h2]

theorem jsSetAdd_mem (seen : List String) (v x : String) :
    x ∈ jsSetAdd seen v ↔ x ∈ seen ∨ x = v := by
  rw [jsSetAdd]
  by_cases h : v ∈ seen
  · rw [if_pos h]
    constructor
    · exact Or.inl
    · rintro (h1 | rfl)
      · exact h1
      · exact h
  · rw [if_neg h]
    simp

theorem jsSetAdd_nodup (seen : List String) (v : String) (h : seen.Nodup) :
    (jsSetAdd seen v).Nodup := by
  rw [jsSetAdd]
  by_cases hv : v ∈ seen
  · rw [if_pos hv]; exact h
  · rw [if_neg hv]
    simp [List.nodup_append, h, hv]

theorem foldl_jsSetAdd_mem (l : List String) :
    ∀ (acc : List String) (x : String),
      x ∈ l.foldl jsSetAdd acc ↔ x ∈ acc ∨ x ∈ l := by
  induction l with
  | nil => simp
  | cons v l ih =>
    intro acc x
    rw [List.foldl_cons, ih, jsSetAdd_mem]
    simp [List.mem_cons]
    tauto

theorem foldl_jsSetAdd_nodup (l : List String) :
    ∀ acc : List String, acc.Nodup → (l.foldl jsSetAdd acc).Nodup := by
  induction l with
  | nil => intro acc h; simpa using h
  | cons v l ih =>
    intro acc h
    rw [List.foldl_cons]
    exact ih _ (jsSetAdd_nodup acc v h)

theorem dedupTags_mem (l : List String) (x : String) :
    x ∈ dedupTags l ↔ x ∈ l := by
  rw [dedupTags, foldl_jsSetAdd_mem]
  simp

theorem dedupTags_nodup (l : List String) : (dedupTags l).Nodup :=
  foldl_jsSetAdd_nodup l [] List.nodup_nil

theorem questionTagNames_foldl (db : List (String × Question)) :
    ∀ acc : List String,
      db.foldl (fun acc p => acc ++ qTags p.2) acc = acc ++ db.flatMap (fun p => qTags p.2) := by
  induction db with
  | nil => simp
  | cons p db ih =>
    intro acc
    rw [List.foldl_cons, ih]
    simp

theorem questionTagNames_eq (db : List (String × Question)) :
    questionTagNames db = db.flatMap (fun p => qTags p.2) := by
  rw [questionTagNames, questionTagNames_foldl]
  simp

theorem paramTags_map_fst (tags : List Tag) :
    (paramTags tags).map Prod.fst = tags.map Tag.name := by
  rw [paramTags, List.map_map]
  rfl

theorem referenced_mem_resolved (tags : List Tag) (db : List (String × Question))
    (p : String × Question) (hp : p ∈ db) (t : String) (ht : t ∈ qTags p.2) :
    t ∈ (resolvedTags tags db).map Tag.name := by
  have hq : t ∈ questionTagNames db := by
    rw [questionTagNames_eq]
    exact List.mem_flatMap.mpr ⟨p, hp, ht⟩
  rw [resolvedTags, List.map_append]
  by_cases hd : t ∈ tags.map Tag.name
  · exact List.mem_append.mpr (Or.inl hd)
  · refine List.mem_append.mpr (Or.inr ?_)
    have hm : t ∈ missingTagNames tags db := by
      rw [missingTagNames, List.mem_filter]
      exact ⟨hq, by simpa using hd⟩
    rw [List.map_map]
    exact List.mem_map.mpr ⟨t, hm, rfl⟩

theorem buildQuestionTags_ok (m : List (String × Nat)) :
    ∀ (db : List (String × Question)) (l : List (Nat × List (Option Nat))),
      buildQuestionTags m db = Except.ok l →
      l = db.map (fun p => (p.2.id, (qTags p.2).map (fun t => mapLookup m t)))
        ∧ ∀ p ∈ db, (∀ t ∈ qTags p.2, (mapLookup m t).isSome = true)
            ∧ getDuplicates (qTags p.2) = [] := by
  intro db
  induction db with
  | nil =>
    intro l h
    rw [buildQuestionTags] at h
    simp only [Except.ok.injEq] at h
    subst h
    simp
  | cons p rest ih =>
    intro l h
    rw [buildQuestionTags] at h
    by_cases h1 : (qTags p.2).filter (fun t => (mapLookup m t).isNone) ≠ []
    · rw [if_pos h1] at h
      simp at h
    · rw [if_neg h1] at h
      by_cases h2 : getDuplicates (qTags p.2) ≠ []
      · rw [if_pos h2] at h
        simp at h
      · rw [if_neg h2] at h
        cases hr : buildQuestionTags m rest with
        | error e => rw [hr] at h; simp at h
        | ok r =>
          rw [hr] at h
          simp only [Except.ok.injEq] at h
          subst h
          obtain ⟨hrl, hrest⟩ := ih r hr
          have hknown : ∀ t ∈ qTags p.2, (mapLookup m t).isSome = true := by
            intro t ht
            have hfil := List.filter_eq_nil_iff.mp (not_not.mp h1) t ht
            cases hl : mapLookup m t with
            | none => exact absurd (by rw [hl]; rfl) hfil
            | some v => rfl
          refine ⟨by rw [hrl, List.map_cons], ?_⟩
          intro q hq
          rcases List.mem_cons.mp hq with rfl | hq2
          · exact ⟨hknown, not_not.mp h2⟩
          · exact hrest q hq2

theorem buildQuestionTags_error_shape (m : List (String × Nat)) :
    ∀ (db : List (String × Question)) (e : SyncError),
      buildQuestionTags m db = Except.error e →
      (∃ qid ts, e = SyncError.unknownTags qid ts) ∨
        (∃ qid ts, e = SyncError.duplicateQuestionTags qid ts) := by
  intro db
  induction db with
  | nil => intro e h; rw [buildQuestionTags] at h; simp at h
  | cons p rest ih =>
    intro e h
    rw [buildQuestionTags] at h
    by_cases h1 : (qTags p.2).filter (fun t => (mapLookup m t).isNone) ≠ []
    · rw [if_pos h1] at h
      simp only [Except.error.injEq] at h
      exact Or.inl ⟨p.1, _, h.symm⟩
    · rw [if_neg h1] at h
      by_cases h2 : getDuplicates (qTags p.2) ≠ []
      · rw [if_pos h2] at h
        simp only [Except.error.injEq] at h
        exact Or.inr ⟨p.1, _, h.symm⟩
      · rw [if_neg h2] at h
        cases hr : buildQuestionTags m rest with
        | error e2 =>
          rw [hr] at h
          simp only [Except.error.injEq] at h
          subst h
          exact ih e2 hr
        | ok r => rw [hr] at h; simp at h

theorem buildQuestionTags_first_dup (m : List (String × Nat)) :
    ∀ db : List (String × Question),
      (∀ p ∈ db, ∀ t ∈ qTags p.2, (mapLookup m t).isSome = true) →
      (∃ p ∈ db, getDuplicates (qTags p.2) ≠ []) →
      ∃ (qs1 : List (String × Question)) (q : String × Question)
        (qs2 : List (String × Question)),
        db = qs1 ++ q :: qs2
        ∧ (∀ p ∈ qs1, getDuplicates (qTags p.2) = [])
        ∧ getDuplicates (qTags q.2) ≠ []
        ∧ buildQuestionTags m db =
            Except.error (SyncError.duplicateQuestionTags q.1 (getDuplicates (qTags q.2))) := by
  intro db
  induction db with
  | nil => intro _ hex; simp at hex
  | cons p rest ih =>
    intro hcov hex
    have h1 : ¬((qTags p.2).filter (fun t => (mapLookup m t).isNone) ≠ []) := by
      rw [not_not, List.filter_eq_nil_iff]
      intro t ht
      have hs := hcov p (List.mem_cons_self p rest) t ht
      cases hl : mapLookup m t with
      | none => rw [hl] at hs; simp at hs
      | some v => simp [hl]
    by_cases h2 : getDuplicates (qTags p.2) ≠ []
    · refine ⟨[], p, rest, rfl, by simp, h2, ?_⟩
      rw [buildQuestionTags, if_neg h1, if_pos h2]
    · have hex2 : ∃ q ∈ rest, getDuplicates (qTags q.2) ≠ [] := by
        rcases hex with ⟨q, hq, hqd⟩
        rcases List.mem_cons.mp hq with rfl | hq2
        · exact absurd hqd h2
        · exact ⟨q, hq2, hqd⟩
      have hcov2 : ∀ p2 ∈ rest, ∀ t ∈ qTags p2.2, (mapLookup m t).isSome = true :=
        fun p2 hp2 => hcov p2 (List.mem_cons_of_mem p hp2)
      rcases ih hcov2 hex2 with ⟨qs1, q, qs2, hdec, hqs1, hqd, hqe⟩
      refine ⟨p :: qs1, q, qs2, by rw [hdec, List.cons_append], ?_, hqd, ?_⟩
      · intro p2 hp2
        rcases List.mem_cons.mp hp2 with rfl | hp3
        · exact not_not.mp h2
        · exact hqs1 p2 hp3
      · rw [buildQuestionTags, if_neg h1, if_neg h2, hqe]

theorem sync_eq_buildQuestionTags (ci : CourseInfo) (db : List (String × Question))
    (ids : List Nat) (m : List (String × Nat))
    (hd : getDuplicatesByKey (ci.tags.getD []) Tag.name = [])
    (hb : buildTagIdsByName
        ((paramTags (resolvedTags (ci.tags.getD []) db)).map Prod.fst) ids = some m) :
    sync ci db ids =
      match buildQuestionTags m db with
      | Except.error e => Except.error e
      | Except.ok pqt =>
          Except.ok
            { paramTags := paramTags (resolvedTags (ci.tags.getD []) db),
              paramQuestionTags := pqt } := by
  rw [sync, if_neg (fun hc => hc hd), hb]

/-- C2: getDuplicates returns exactly the repeats of earlier occurrences: it is
a subsequence of the input, at the multiset level every value occurs exactly
one time fewer than in the input (so the first occurrence of each value is
never kept and every later occurrence is), its length is the input length
minus the number of distinct values, and each element of the output occurs
more than once in the input. -/
theorem getDuplicates_spec {α : Type} [DecidableEq α] (S : List α) :
    List.Sublist (getDuplicates S) S
    ∧ (∀ x : α, (getDuplicates S).count x = S.count x - 1)
    ∧ (getDuplicates S).length = S.length - S.toFinset.card
    ∧ ∀ x ∈ getDuplicates S, 2 ≤ S.count x := by
  refine ⟨getDuplicatesGo_sublist [] S, getDuplicates_count S,
    getDuplicates_length S, ?_⟩
  intro x hx
  have hc : 0 < (getDuplicates S).count x := List.count_pos_iff.mpr hx
  rw [getDuplicates_count] at hc
  omega

/-- Witness for C2 at the list [1, 1, 2, 1]. -/
theorem getDuplicates_spec_w :
    (1 : Nat) ∈ getDuplicates [1, 1, 2, 1] ∧ 2 ≤ List.count 1 [1, 1, 2, 1] :=
  ⟨by decide, (getDuplicates_spec [1, 1, 2, 1]).2.2.2 1 (by decide)⟩

/-- C8: the legacy sync fails with the duplicate-name error, listing the
repeated occurrences of declared names, exactly when some name occurs more
than once in the course tag list; with distinct declared names no
duplicate-name error is raised and the run moves on. -/
theorem sync_duplicate_names_iff (ci : CourseInfo) (db : List (String × Question))
    (ids : List Nat) :
    (sync ci db ids =
        Except.error (SyncError.duplicateTagNames
          (getDuplicatesByKey (ci.tags.getD []) Tag.name))
      ↔ ¬((ci.tags.getD []).map Tag.name).Nodup)
    ∧ (((ci.tags.getD []).map Tag.name).Nodup →
        ∀ l : List String,
          sync ci db ids ≠ Except.error (SyncError.duplicateTagNames l)) := by
  by_cases hd : getDuplicatesByKey (ci.tags.getD []) Tag.name = []
  · have hnodup : ((ci.tags.getD []).map Tag.name).Nodup :=
      (getDuplicates_eq_nil_iff _).mp hd
    have hne : ∀ l : List String,
        sync ci db ids ≠ Except.error (SyncError.duplicateTagNames l) := by
      intro l hcontra
      rw [sync, if_neg (fun hc => hc hd)] at hcontra
      cases hb : buildTagIdsByName
          ((paramTags (resolvedTags (ci.tags.getD []) db)).map Prod.fst) ids with
      | none =>
        rw [hb] at hcontra
        simp at hcontra
      | some m =>
        rw [hb] at hcontra
        simp only [] at hcontra
        cases hq : buildQuestionTags m db with
        | error e =>
          rw [hq] at hcontra
          simp only [Except.error.injEq] at hcontra
          rcases buildQuestionTags_error_shape m db e hq with ⟨qid, ts, rfl⟩ | ⟨qid, ts, rfl⟩ <;>
            simp at hcontra
        | ok pqt =>
          rw [hq] at hcontra
          simp at hcontra
    exact ⟨⟨fun h => absurd h (hne _), fun h => absurd hnodup h⟩, fun _ => hne⟩
  · have hnn : ¬((ci.tags.getD []).map Tag.name).Nodup := by
      intro hnodup
      exact hd ((getDuplicates_eq_nil_iff _).mpr hnodup)
    have hs : sync ci db ids =
        Except.error (SyncError.duplicateTagNames
          (getDuplicatesByKey (ci.tags.getD []) Tag.name)) := by
      rw [sync, if_pos hd]
    exact ⟨⟨fun _ => hnn, fun _ => hs⟩, fun h => absurd h hnn⟩

/-- Witness for C8: duplicated declared names fail with exactly the
duplicate-name error; distinct declared names never produce it. -/
theorem sync_duplicate_names_iff_w :
    sync ⟨some [⟨"a", "blue1", "d"⟩, ⟨"a", "blue1", "d"⟩], 1⟩ [] []
      = Except.error (SyncError.duplicateTagNames ["a"])
    ∧ sync ⟨some [⟨"a", "blue1", "d"⟩], 1⟩ [] []
        ≠ Except.error (SyncError.duplicateTagNames ["a"]) := by
  constructor
  · exact ((sync_duplicate_names_iff
      ⟨some [⟨"a", "blue1", "d"⟩, ⟨"a", "blue1", "d"⟩], 1⟩ [] []).1.mpr
        (by decide)).trans (by rfl)
  · exact (sync_duplicate_names_iff ⟨some [⟨"a", "blue1", "d"⟩], 1⟩ [] []).2
      (by decide) ["a"]

/-- C3 amended: the legacy resolver appends exactly one placeholder record
(color gray1, fixed auto-generated description) per occurrence of a missing
referenced name in the concatenated question tag lists, in reference order
(so a name referenced by several questions gets several placeholders), and no
placeholder for a declared name. -/
theorem resolvedTags_placeholders (tags : List Tag) (db : List (String × Question)) :
    resolvedTags tags db = tags ++ (missingTagNames tags db).map placeholderTag
    ∧ (∀ n ∈ tags.map Tag.name, n ∉ missingTagNames tags db)
    ∧ (∀ n : String, n ∉ tags.map Tag.name →
        (missingTagNames tags db).count n = (questionTagNames db).count n)
    ∧ ∀ n : String, placeholderTag n =
        { name := n, color := "gray1", description := autoGeneratedDescription } := by
  refine ⟨rfl, ?_, ?_, fun n => rfl⟩
  · intro n hn hmem
    rw [missingTagNames, List.mem_filter] at hmem
    exact (of_decide_eq_true hmem.2) hn
  · intro n hn
    rw [missingTagNames]
    exact List.count_filter (by simpa using hn)

/-- Witness for C3 at the example of the spec: declared tag x, one question
referencing x and y. -/
theorem resolvedTags_placeholders_w :
    resolvedTags [⟨"x", "blue1", "d"⟩] [("q1", ⟨1, some ["x", "y"]⟩)]
      = [⟨"x", "blue1", "d"⟩, placeholderTag "y"]
    ∧ (resolvedTags [⟨"x", "blue1", "d"⟩] [("q1", ⟨1, some ["x", "y"]⟩)]).length = 2 := by
  have h := (resolvedTags_placeholders [⟨"x", "blue1", "d"⟩]
    [("q1", ⟨1, some ["x", "y"]⟩)]).1
  have e : resolvedTags [⟨"x", "blue1", "d"⟩] [("q1", ⟨1, some ["x", "y"]⟩)]
      = [⟨"x", "blue1", "d"⟩, placeholderTag "y"] := h.trans (by decide)
  exact ⟨e, by rw [e]; rfl⟩

/-- C3 counterexample: two questions referencing the same undeclared name y
produce two placeholder records, not one per distinct missing name. -/
theorem resolvedTags_distinct_counterexample :
    resolvedTags [] [("q1", ⟨1, some ["y"]⟩), ("q2", ⟨2, some ["y"]⟩)]
      = [placeholderTag "y", placeholderTag "y"]
    ∧ (resolvedTags [] [("q1", ⟨1, some ["y"]⟩), ("q2", ⟨2, some ["y"]⟩)]).count
        (placeholderTag "y") = 2 := by
  constructor
  · rfl
  · rfl

/-- C9: when courseInfo.tags is present and the run passes the duplicate-name
check (the only exit before the push), the caller-owned array is extended in
place by one placeholder per element of missingTagNames; the push precedes the
database call and the per-question validation, so the extension also survives
a run that fails later. -/
theorem syncFinalTags_extends (ts : List Tag) (cid : Nat)
    (db : List (String × Question)) (h : getDuplicatesByKey ts Tag.name = []) :
    syncFinalTags ⟨some ts, cid⟩ db
      = some (ts ++ (missingTagNames ts db).map placeholderTag) := by
  show (if getDuplicatesByKey ts Tag.name ≠ [] then some ts
    else some (resolvedTags ts db)) = _
  rw [if_neg (fun hc => hc h)]
  rfl

/-- Witness for C9: a run that fails at the per-question duplicate check has
still extended the array, here by two placeholders for the twice-referenced
missing name x. -/
theorem syncFinalTags_extends_w :
    getDuplicatesByKey ([] : List Tag) Tag.name = []
    ∧ syncFinalTags ⟨some [], 1⟩ [("q1", ⟨1, some ["x", "x"]⟩)]
        = some [placeholderTag "x", placeholderTag "x"]
    ∧ sync ⟨some [], 1⟩ [("q1", ⟨1, some ["x", "x"]⟩)] [1, 2]
        = Except.error (SyncError.duplicateQuestionTags "q1" ["x"]) := by
  refine ⟨rfl, ?_, by rfl⟩
  exact (syncFinalTags_extends [] 1 [("q1", ⟨1, some ["x", "x"]⟩)] rfl).trans (by decide)

/-- C6 amended: the encoded tuple at each index starts with the name of the
resolved tag at the same index, unconditionally; pairing returned ids
positionally builds a map that sends the name of the i-th tag to the i-th id
provided the resolved names are pairwise distinct and the response is
positionally aligned — with a repeated resolved name (reachable, since
placeholders are synthesized per occurrence) the later positional assignment
overwrites the earlier one, so the earlier tag loses its own returned id. -/
theorem paramTags_positional (tags : List Tag) (ids : List Nat)
    (hn : (tags.map Tag.name).Nodup) (hl : ids.length = tags.length) :
    (∀ i : Nat, ((paramTags tags)[i]?).map Prod.fst = (tags[i]?).map Tag.name)
    ∧ buildTagIdsByName ((paramTags tags).map Prod.fst) ids
        = some (((paramTags tags).map Prod.fst).zip ids)
    ∧ ∀ (i : Nat) (t : Tag) (id : Nat), tags[i]? = some t → ids[i]? = some id →
        mapLookup (((paramTags tags).map Prod.fst).zip ids) t.name = some id := by
  refine ⟨?_, ?_, ?_⟩
  · intro i
    rw [paramTags, List.getElem?_map]
    cases tags[i]? <;> rfl
  · rw [buildTagIdsByName, if_pos]
    rw [paramTags_map_fst, List.length_map]
    omega
  · intro i t id h1 h2
    rw [paramTags_map_fst]
    apply mapLookup_zip_get (tags.map Tag.name) ids hn i t.name id _ h2
    rw [List.getElem?_map, h1]
    rfl

/-- Witness for C6 at two tags and the response [5, 6]. -/
theorem paramTags_positional_w :
    mapLookup
      (((paramTags [⟨"a", "blue1", "d1"⟩, ⟨"b", "red1", "d2"⟩]).map Prod.fst).zip [5, 6])
      "b" = some 6 := by
  have h := paramTags_positional [⟨"a", "blue1", "d1"⟩, ⟨"b", "red1", "d2"⟩] [5, 6]
    (by decide) (by decide)
  exact h.2.2 1 ⟨"b", "red1", "d2"⟩ 6 (by decide) (by decide)

/-- C6 counterexample: a reachable legacy run (no declared tags, so the
duplicate-name check passes) in which two questions reference the undeclared
name y: the resolved list holds two tags named y, the tag at index 0 gets the
returned id 1, but the positionally built map sends y to 2 — the round trip
does not assign the first y tag its own returned id. -/
theorem paramTags_positional_counterexample :
    getDuplicatesByKey ([] : List Tag) Tag.name = []
    ∧ (resolvedTags [] [("q1", ⟨1, some ["y"]⟩), ("q2", ⟨2, some ["y"]⟩)]).map
        Tag.name = ["y", "y"]
    ∧ buildTagIdsByName
        ((paramTags (resolvedTags []
          [("q1", ⟨1, some ["y"]⟩), ("q2", ⟨2, some ["y"]⟩)])).map Prod.fst)
        [1, 2]
      = some [("y", 1), ("y", 2)]
    ∧ mapLookup [("y", 1), ("y", 2)] "y" = some 2
    ∧ some 2 ≠ (some 1 : Option Nat) := by
  refine ⟨rfl, rfl, rfl, rfl, by decide⟩

/-- C7 amended: the legacy encoder emits (name, color, description) tuples and
(question id, ordered id list) association tuples; the current encoder emits
(name, description, color) tuples — description and color swapped relative to
the legacy order — and (working id, ordered id list over the deduplicated
names) association tuples. -/
theorem encoder_shapes :
    (∀ tags : List Tag,
        paramTags tags = tags.map (fun t => (t.name, t.color, t.description)))
    ∧ (∀ course : InfoFile (List Tag), course.hasErrors = false →
        newCourseTags course
          = course.data.map (fun t => (t.name, t.description, t.color)))
    ∧ (∀ (m : List (String × Nat)) (db : List (String × Question))
          (l : List (Nat × List (Option Nat))),
        buildQuestionTags m db = Except.ok l →
          l = db.map (fun p => (p.2.id, (qTags p.2).map (fun t => mapLookup m t))))
    ∧ ∀ (cid : Nat) (cd : CourseData) (qids : String → Option Nat)
        (nt : List (String × Nat)),
        (syncNew cid cd qids nt).2 = cd.questions.filterMap (fun p =>
          if p.2.hasErrors then none
          else some
            (qids p.1, (dedupTags (p.2.data.getD [])).map (fun t => mapLookup nt t))) := by
  refine ⟨fun tags => rfl, ?_, ?_, fun cid cd qids nt => rfl⟩
  · intro course h
    rw [newCourseTags, if_neg (by simp [h])]
  · intro m db l h
    exact (buildQuestionTags_ok m db l h).1

/-- Witness for C7 amended: the current encoder output on a concrete valid
course item. -/
theorem encoder_shapes_w :
    newCourseTags ⟨false, [⟨"n", "c", "d"⟩]⟩ = [("n", "d", "c")] :=
  (encoder_shapes.2.1 ⟨false, [⟨"n", "c", "d"⟩]⟩ rfl).trans (by decide)

/-- C7 counterexample: the current-path encoder emits (name, description,
color): a tag with color c and description d becomes ("n", "d", "c"), not the
claimed ("n", "c", "d"). -/
theorem newCourseTags_order_counterexample :
    newCourseTags ⟨false, [⟨"n", "c", "d"⟩]⟩ = [("n", "d", "c")]
    ∧ ("n", "d", "c") ≠ (("n", "c", "d") : String × String × String) := by
  constructor
  · rfl
  · decide

theorem newQuestionTagNames_foldl (qs : List (String × InfoFile (Option (List String)))) :
    ∀ acc : List String,
      qs.foldl
        (fun acc p =>
          if p.2.hasErrors then acc else (p.2.data.getD []).foldl jsSetAdd acc) acc
      = (qs.filter (fun p => !p.2.hasErrors)).foldl
          (fun acc p => (p.2.data.getD []).foldl jsSetAdd acc) acc := by
  induction qs with
  | nil => intro acc; rfl
  | cons p rest ih =>
    intro acc
    rw [List.foldl_cons, List.filter_cons]
    cases hp : p.2.hasErrors
    · rw [if_neg (by simp [hp])]
      simp only [hp, Bool.not_false, if_pos]
      rw [List.foldl_cons, ih]
    · rw [if_pos (by simp [hp])]
      simp only [hp, Bool.not_true, Bool.false_eq_true, if_false]
      exact ih acc

theorem newQuestionTagNames_skip_errored
    (qs1 qs2 : List (String × InfoFile (Option (List String))))
    (qid : String) (q : InfoFile (Option (List String))) (hq : q.hasErrors = true) :
    newQuestionTagNames (qs1 ++ (qid, q) :: qs2) = newQuestionTagNames (qs1 ++ qs2) := by
  rw [newQuestionTagNames, newQuestionTagNames, List.foldl_append, List.foldl_append,
    List.foldl_cons]
  simp [hq]

theorem newQuestionTagsParam_skip_errored
    (qs1 qs2 : List (String × InfoFile (Option (List String))))
    (qid : String) (q : InfoFile (Option (List String))) (hq : q.hasErrors = true)
    (m : List (String × Nat)) (qids : String → Option Nat) :
    newQuestionTagsParam (qs1 ++ (qid, q) :: qs2) m qids
      = newQuestionTagsParam (qs1 ++ qs2) m qids := by
  rw [newQuestionTagsParam, newQuestionTagsParam, List.filterMap_append,
    List.filterMap_append, List.filterMap_cons]
  simp [hq]

/-- C5: with an errored course item the first current-path call carries
(false, empty declared-tag list, the names referenced by error-free questions,
the course id), and an errored question contributes nothing to the
referenced-name list or to the second-call payload: removing it from the
question list changes neither. -/
theorem syncNew_invalid_course (cid : Nat) (cd : CourseData)
    (qids : String → Option Nat) (nt : List (String × Nat))
    (h : cd.course.hasErrors = true) :
    (syncNew cid cd qids nt).1
      = ⟨false, [], newQuestionTagNames cd.questions, cid⟩
    ∧ ∀ (qs1 : List (String × InfoFile (Option (List String))))
        (qid : String) (q : InfoFile (Option (List String)))
        (qs2 : List (String × InfoFile (Option (List String)))),
        cd.questions = qs1 ++ (qid, q) :: qs2 → q.hasErrors = true →
        newQuestionTagNames cd.questions = newQuestionTagNames (qs1 ++ qs2)
        ∧ newQuestionTagsParam cd.questions nt qids
            = newQuestionTagsParam (qs1 ++ qs2) nt qids := by
  constructor
  · show (⟨!cd.course.hasErrors, newCourseTags cd.course,
      newQuestionTagNames cd.questions, cid⟩ : SyncNewParams) = _
    rw [newCourseTags, if_pos (by simp [h]), h]
    rfl
  · intro qs1 qid q qs2 heq hq
    rw [heq]
    exact ⟨newQuestionTagNames_skip_errored qs1 qs2 qid q hq,
      newQuestionTagsParam_skip_errored qs1 qs2 qid q hq nt qids⟩

/-- Witness for C5 at the end-to-end example of the spec: errored course file,
a valid question referencing t1 and an errored question. -/
theorem syncNew_invalid_course_w :
    (syncNew 3
        ⟨⟨true, []⟩, [("q1", ⟨false, some ["t1"]⟩), ("q2", ⟨true, some ["zz"]⟩)]⟩
        (fun _ => some 10) [("t1", 5)]).1
      = ⟨false, [], ["t1"], 3⟩
    ∧ (syncNew 3
        ⟨⟨true, []⟩, [("q1", ⟨false, some ["t1"]⟩), ("q2", ⟨true, some ["zz"]⟩)]⟩
        (fun _ => some 10) [("t1", 5)]).2
      = [(some 10, [some 5])] := by
  have h := (syncNew_invalid_course 3
    ⟨⟨true, []⟩, [("q1", ⟨false, some ["t1"]⟩), ("q2", ⟨true, some ["zz"]⟩)]⟩
    (fun _ => some 10) [("t1", 5)] rfl).1
  exact ⟨h.trans (by decide), by decide⟩

/-- C1 amended: in the legacy sync the name-to-id map covers every tag name
referenced by any question whenever the run succeeds (so a reference missing
from the map always makes the run fail first, and every encoded id is present);
in the current sync there is no such guarantee: a referenced name absent from
the returned map is silently encoded as none, with no error. -/
theorem map_coverage :
    (∀ (ci : CourseInfo) (db : List (String × Question)) (ids : List Nat)
        (r : SyncResult) (m : List (String × Nat)),
        sync ci db ids = Except.ok r →
        buildTagIdsByName
          ((paramTags (resolvedTags (ci.tags.getD []) db)).map Prod.fst) ids = some m →
        (∀ p ∈ db, ∀ t ∈ qTags p.2, (mapLookup m t).isSome = true)
        ∧ ∀ e ∈ r.paramQuestionTags, ∀ id ∈ e.2, id.isSome = true)
    ∧ ∀ (cid : Nat) (cd : CourseData) (qids : String → Option Nat)
        (nt : List (String × Nat)) (p : String × InfoFile (Option (List String))),
        p ∈ cd.questions → p.2.hasErrors = false →
        ∀ t ∈ p.2.data.getD [], mapLookup nt t = none →
          none ∈ (dedupTags (p.2.data.getD [])).map (fun s => mapLookup nt s)
          ∧ (qids p.1, (dedupTags (p.2.data.getD [])).map (fun s => mapLookup nt s))
              ∈ (syncNew cid cd qids nt).2 := by
  constructor
  · intro ci db ids r m hok hb
    by_cases hd : getDuplicatesByKey (ci.tags.getD []) Tag.name = []
    · rw [sync_eq_buildQuestionTags ci db ids m hd hb] at hok
      cases hq : buildQuestionTags m db with
      | error e => rw [hq] at hok; simp at hok
      | ok l =>
        rw [hq] at hok
        simp only [Except.ok.injEq] at hok
        obtain ⟨hshape, hinv⟩ := buildQuestionTags_ok m db l hq
        refine ⟨fun p hp => (hinv p hp).1, ?_⟩
        intro e he id hid
        rw [← hok] at he
        simp only [hshape] at he
        rcases List.mem_map.mp he with ⟨p, hp, hpe⟩
        rw [← hpe] at hid
        simp only at hid
        rcases List.mem_map.mp hid with ⟨t, ht, hti⟩
        rw [← hti]
        exact (hinv p hp).1 t ht
    · rw [sync, if_pos hd] at hok
      simp at hok
  · intro cid cd qids nt p hp he t ht hnone
    have hmem : none ∈ (dedupTags (p.2.data.getD [])).map (fun s => mapLookup nt s) := by
      refine List.mem_map.mpr ⟨t, ?_, hnone⟩
      exact (dedupTags_mem _ t).mpr ht
    refine ⟨hmem, ?_⟩
    show _ ∈ newQuestionTagsParam cd.questions nt qids
    rw [newQuestionTagsParam]
    refine List.mem_filterMap.mpr ⟨p, hp, ?_⟩
    rw [if_neg (by simp [he])]

/-- Witness for C1 amended at a current-path run whose response resolves no
name: the valid question referencing t1 is encoded with a none id. -/
theorem map_coverage_w :
    none ∈ (dedupTags ["t1"]).map (fun s => mapLookup [] s)
    ∧ (some 7, (dedupTags ["t1"]).map (fun s => mapLookup [] s))
        ∈ (syncNew 1 ⟨⟨true, []⟩, [("q1", ⟨false, some ["t1"]⟩)]⟩
            (fun _ => some 7) []).2 :=
  map_coverage.2 1 ⟨⟨true, []⟩, [("q1", ⟨false, some ["t1"]⟩)]⟩ (fun _ => some 7) []
    ("q1", ⟨false, some ["t1"]⟩) (by decide) rfl "t1" (by decide) rfl

/-- C1 counterexample: with an errored course file, a single valid question
referencing t1 and an empty first-call response, the current sync does not
fail and encodes the association with a none id although the map has no entry
for t1. -/
theorem map_coverage_counterexample :
    mapLookup [] "t1" = none
    ∧ syncNew 1 ⟨⟨true, []⟩, [("q1", ⟨false, some ["t1"]⟩)]⟩ (fun _ => some 7) []
        = (⟨false, [], ["t1"], 1⟩, [(some 7, [none])]) := by
  constructor
  · rfl
  · rfl

/-- C4 amended: a question holding the same tag name twice always makes the
legacy run fail; when the declared names are distinct and the response is
positionally aligned, the reported error is the duplicate-tag error of the
first offending question in iteration order, naming it and its duplicated
names (a later offender is reported only through that earlier failure); the
current path raises nothing and encodes exactly one id reference per distinct
name of the question. -/
theorem duplicate_question_tags :
    (∀ (ci : CourseInfo) (db : List (String × Question)) (ids : List Nat)
        (p : String × Question), p ∈ db → ¬(qTags p.2).Nodup →
        ∀ r : SyncResult, sync ci db ids ≠ Except.ok r)
    ∧ (∀ (ci : CourseInfo) (db : List (String × Question)) (ids : List Nat),
        ((ci.tags.getD []).map Tag.name).Nodup →
        ids.length = (resolvedTags (ci.tags.getD []) db).length →
        (∃ p ∈ db, ¬(qTags p.2).Nodup) →
        ∃ (qs1 : List (String × Question)) (q : String × Question)
          (qs2 : List (String × Question)),
          db = qs1 ++ q :: qs2
          ∧ (∀ p ∈ qs1, (qTags p.2).Nodup)
          ∧ ¬(qTags q.2).Nodup
          ∧ sync ci db ids = Except.error
              (SyncError.duplicateQuestionTags q.1 (getDuplicates (qTags q.2))))
    ∧ ∀ (cid : Nat) (cd : CourseData) (qids : String → Option Nat)
        (nt : List (String × Nat)) (p : String × InfoFile (Option (List String))),
        p ∈ cd.questions → p.2.hasErrors = false →
        (qids p.1, (dedupTags (p.2.data.getD [])).map (fun t => mapLookup nt t))
          ∈ (syncNew cid cd qids nt).2
        ∧ (dedupTags (p.2.data.getD [])).Nodup
        ∧ ∀ t : String, t ∈ dedupTags (p.2.data.getD []) ↔ t ∈ p.2.data.getD [] := by
  refine ⟨?_, ?_, ?_⟩
  · intro ci db ids p hp hnd r hok
    by_cases hd : getDuplicatesByKey (ci.tags.getD []) Tag.name = []
    · cases hb : buildTagIdsByName
          ((paramTags (resolvedTags (ci.tags.getD []) db)).map Prod.fst) ids with
      | none =>
        rw [sync, if_neg (fun hc => hc hd), hb] at hok
        simp at hok
      | some m =>
        rw [sync_eq_buildQuestionTags ci db ids m hd hb] at hok
        cases hq : buildQuestionTags m db with
        | error e => rw [hq] at hok; simp at hok
        | ok l =>
          have hinv := (buildQuestionTags_ok m db l hq).2 p hp
          exact hnd ((getDuplicates_eq_nil_iff _).mp hinv.2)
    · rw [sync, if_pos hd] at hok
      simp at hok
  · intro ci db ids hnodup hlen hex
    have hd : getDuplicatesByKey (ci.tags.getD []) Tag.name = [] :=
      (getDuplicates_eq_nil_iff _).mpr hnodup
    have hb : buildTagIdsByName
        ((paramTags (resolvedTags (ci.tags.getD []) db)).map Prod.fst) ids
        = some (((paramTags (resolvedTags (ci.tags.getD []) db)).map Prod.fst).zip ids) := by
      rw [buildTagIdsByName, if_pos]
      rw [List.length_map, paramTags, List.length_map]
      omega
    have hkeys : ((((paramTags (resolvedTags (ci.tags.getD []) db)).map Prod.fst).zip ids).map
        Prod.fst) = (paramTags (resolvedTags (ci.tags.getD []) db)).map Prod.fst :=
      List.map_fst_zip _ ids (by rw [List.length_map, paramTags, List.length_map]; omega)
    have hcov : ∀ p ∈ db, ∀ t ∈ qTags p.2,
        (mapLookup (((paramTags (resolvedTags (ci.tags.getD []) db)).map Prod.fst).zip ids)
          t).isSome = true := by
      intro p hp t ht
      rw [mapLookup_isSome_iff, hkeys, paramTags_map_fst]
      exact referenced_mem_resolved _ db p hp t ht
    have hex2 : ∃ p ∈ db, getDuplicates (qTags p.2) ≠ [] := by
      rcases hex with ⟨p, hp, hnd⟩
      exact ⟨p, hp, fun hc => hnd ((getDuplicates_eq_nil_iff _).mp hc)⟩
    rcases buildQuestionTags_first_dup _ db hcov hex2 with
      ⟨qs1, q, qs2, hdec, hqs1, hqd, hqe⟩
    refine ⟨qs1, q, qs2, hdec, ?_,
      fun hc => hqd ((getDuplicates_eq_nil_iff _).mpr hc), ?_⟩
    · intro p hp
      exact (getDuplicates_eq_nil_iff _).mp (hqs1 p hp)
    · rw [sync_eq_buildQuestionTags ci db ids _ hd hb, hqe]
  · intro cid cd qids nt p hp he
    refine ⟨?_, dedupTags_nodup _, fun t => dedupTags_mem _ t⟩
    show _ ∈ newQuestionTagsParam cd.questions nt qids
    rw [newQuestionTagsParam]
    refine List.mem_filterMap.mpr ⟨p, hp, ?_⟩
    rw [if_neg (by simp [he])]

/-- Witness for C4: a run over a single question with a duplicated tag cannot
succeed. -/
theorem duplicate_question_tags_w :
    ¬(qTags (⟨1, some ["x", "x"]⟩ : Question)).Nodup
    ∧ sync ⟨none, 1⟩ [("q1", ⟨1, some ["x", "x"]⟩)] [1, 2]
        ≠ Except.ok ⟨[], []⟩ :=
  ⟨by decide,
    duplicate_question_tags.1 ⟨none, 1⟩ [("q1", ⟨1, some ["x", "x"]⟩)] [1, 2]
      ("q1", ⟨1, some ["x", "x"]⟩) (by decide) (by decide) ⟨[], []⟩⟩

/-- C4 counterexample: with two offending questions the single error of the
run names only the first; here q2 also duplicates a tag but the error produced
names q1, so no error naming q2 is ever raised. -/
theorem duplicate_question_tags_counterexample :
    sync ⟨none, 1⟩ [("q1", ⟨1, some ["x", "x"]⟩), ("q2", ⟨2, some ["z", "z"]⟩)]
        [1, 2, 3, 4]
      = Except.error (SyncError.duplicateQuestionTags "q1" ["x"])
    ∧ ¬(qTags (⟨2, some ["z", "z"]⟩ : Question)).Nodup := by
  constructor
  · rfl
  · decide

theorem newQuestionTagsParam_cons (p : String × InfoFile (Option (List String)))
    (rest : List (String × InfoFile (Option (List String))))
    (m : List (String × Nat)) (qids : String → Option Nat) :
    newQuestionTagsParam (p :: rest) m qids =
      if p.2.hasErrors then newQuestionTagsParam rest m qids
      else (qids p.1, (dedupTags (p.2.data.getD [])).map (fun t => mapLookup m t))
        :: newQuestionTagsParam rest m qids := by
  cases hp : p.2.hasErrors <;>
    simp [newQuestionTagsParam, List.filterMap_cons, hp]

theorem newQuestionTagsParam_length
    (qs : List (String × InfoFile (Option (List String))))
    (m : List (String × Nat)) (qids : String → Option Nat) :
    (newQuestionTagsParam qs m qids).length
      = (qs.filter (fun p => !p.2.hasErrors)).length := by
  induction qs with
  | nil => rfl
  | cons p rest ih =>
    rw [newQuestionTagsParam_cons, List.filter_cons]
    cases hp : p.2.hasErrors
    · rw [if_neg (by simp [hp]), if_pos (by simp [hp]), List.length_cons,
        List.length_cons, ih]
    · rw [if_pos (by simp [hp]), if_neg (by simp [hp]), ih]

/-- C10: the current sync validates nothing: the declared tags pass through
untouched whatever their names (one tuple per declared tag when the course
item loaded, none otherwise), every error-free question always contributes
exactly one association entry whose ids come from silent Set deduplication of
its references, and unresolved references are encoded rather than rejected. -/
theorem syncNew_no_validation (cid : Nat) (cd : CourseData)
    (qids : String → Option Nat) (nt : List (String × Nat)) :
    ((syncNew cid cd qids nt).1.courseTags.length =
        if cd.course.hasErrors then 0 else cd.course.data.length)
    ∧ (syncNew cid cd qids nt).2.length
        = (cd.questions.filter (fun p => !p.2.hasErrors)).length
    ∧ ∀ p ∈ cd.questions, p.2.hasErrors = false →
        (qids p.1, (dedupTags (p.2.data.getD [])).map (fun t => mapLookup nt t))
          ∈ (syncNew cid cd qids nt).2
        ∧ ∀ t ∈ p.2.data.getD [], mapLookup nt t = none →
            none ∈ (dedupTags (p.2.data.getD [])).map (fun t => mapLookup nt t) := by
  refine ⟨?_, ?_, ?_⟩
  · show (newCourseTags cd.course).length = _
    rw [newCourseTags]
    cases hc : cd.course.hasErrors
    · rw [if_neg (by simp), if_neg (by simp), List.length_map]
    · rw [if_pos rfl, if_pos rfl]
      rfl
  · exact newQuestionTagsParam_length cd.questions nt qids
  · intro p hp he
    constructor
    · show _ ∈ newQuestionTagsParam cd.questions nt qids
      rw [newQuestionTagsParam]
      refine List.mem_filterMap.mpr ⟨p, hp, ?_⟩
      rw [if_neg (by simp [he])]
    · intro t ht hnone
      refine List.mem_map.mpr ⟨t, ?_, hnone⟩
      exact (dedupTags_mem _ t).mpr ht

/-- Witness for C10 at a course item with a duplicated declared name and a
question with a duplicated unresolved reference: nothing is rejected. -/
theorem syncNew_no_validation_w :
    (some 7, (dedupTags ["x", "x"]).map (fun t => mapLookup [] t))
      ∈ (syncNew 2 ⟨⟨false, [⟨"a", "c", "d"⟩, ⟨"a", "c", "d"⟩]⟩,
          [("q1", ⟨false, some ["x", "x"]⟩)]⟩ (fun _ => some 7) []).2
    ∧ (syncNew 2 ⟨⟨false, [⟨"a", "c", "d"⟩, ⟨"a", "c", "d"⟩]⟩,
          [("q1", ⟨false, some ["x", "x"]⟩)]⟩ (fun _ => some 7) []).1.courseTags.length
        = 2 := by
  have h := syncNew_no_validation 2
    ⟨⟨false, [⟨"a", "c", "d"⟩, ⟨"a", "c", "d"⟩]⟩, [("q1", ⟨false, some ["x", "x"]⟩)]⟩
    (fun _ => some 7) []
  exact ⟨(h.2.2 ("q1", ⟨false, some ["x", "x"]⟩) (by decide) rfl).1, h.1.trans (by decide)⟩
